import Mathlib

/-!
Verification of the tiered commission engine of `backend/models.py`
(`Employee.calculate_current_rate_based_on_fees` and
`Employee.calculate_commission_based_on_fees`).

Modelling choices:
* Python floats are modelled as rationals (`ℚ`): the algorithm is pure
  arithmetic and the spec's example values are exact decimal fractions.
* The employee fields read by the two methods (`commission_structure`,
  `cumulative_fees`, `cumulative_commission`) are passed as explicit
  arguments; the JSON commission structure (after the `.get` defaults of
  lines 44, 47, 69-71: absent `base_rate` ⇒ 0.0, absent `tiers` ⇒ `[]`,
  absent `cap` ⇒ `None`) is the record `CommissionStructure`.
* Python's `sorted(..., key=lambda x: x['threshold'])` is a stable sort by
  threshold; it is modelled by `List.insertionSort` on the threshold order,
  which is also stable.
* The display-only fields of a breakdown entry (`segment` index and the
  formatted `description` string, lines 112, 118, 137, 143, 155, 161) are
  presentation data and are omitted from `Segment`; every numeric field is
  kept.
* The `while remaining_fee > 0` loop (line 87) is embedded with an explicit
  fuel parameter; `calculate_commission_based_on_fees` runs it with fuel
  `tiers.length + 1`, and the fuel-stability and consumption lemmas below
  show this bound is never exhausted, so the fuelled loop coincides with
  the unbounded Python loop.
-/

/-- One entry of the `tiers` list of a commission structure:
`{threshold, rate}`. -/
structure Tier where
  threshold : ℚ
  rate : ℚ
deriving DecidableEq, Repr

/-- A commission structure after the `.get` defaults of the source:
`base_rate` (default 0.0), `tiers` (default `[]`), optional `cap`. -/
structure CommissionStructure where
  base_rate : ℚ
  tiers : List Tier
  cap : Option ℚ
deriving DecidableEq, Repr

/-- One breakdown entry appended by the loop (numeric fields only; the
`segment` index and `description` string are display-only). -/
structure Segment where
  from_cumulative_fees : ℚ
  to_cumulative_fees : ℚ
  fee_amount : ℚ
  rate : ℚ
  commission : ℚ
deriving DecidableEq, Repr

/-- The dictionary returned by `calculate_commission_based_on_fees`
(lines 177-185). -/
structure CommissionResult where
  total_commission : ℚ
  breakdown : List Segment
  cumulative_fees_before : ℚ
  cumulative_fees_after : ℚ
  cumulative_commission_before : ℚ
  cumulative_commission_after : ℚ
  new_rate : ℚ
deriving DecidableEq, Repr

/-- Threshold order on tiers, the sort key of
`sorted(structure.get('tiers', []), key=lambda x: x['threshold'])`. -/
def tierLE : Tier → Tier → Prop := fun a b => a.threshold ≤ b.threshold

instance : DecidableRel tierLE := fun a b => inferInstanceAs (Decidable (a.threshold ≤ b.threshold))

instance : IsTotal Tier tierLE := ⟨fun a b => le_total a.threshold b.threshold⟩

instance : IsTrans Tier tierLE := ⟨fun _ _ _ h1 h2 => le_trans h1 h2⟩

/-- Python's stable `sorted` by threshold (lines 47 and 70), modelled by the
stable `List.insertionSort`. -/
def sortTiers (l : List Tier) : List Tier := List.insertionSort tierLE l

/-- The overwrite scan
`for tier in tiers: if cumulative_fees >= tier['threshold']: current_rate = tier['rate']`
(lines 47-49, 78-80, 170-172), starting from an accumulator. -/
def scanRate (fees : ℚ) (l : List Tier) (r : ℚ) : ℚ :=
  l.foldl (fun acc t => if t.threshold ≤ fees then t.rate else acc) r

/-- `current_rate = min(current_rate, cap)` when a cap is present
(lines 52-53, 83-84, 100, 129-130, 174-175). -/
def applyCap (cap : Option ℚ) (r : ℚ) : ℚ :=
  match cap with
  | none => r
  | some c => min r c

/-- `Employee.calculate_current_rate_based_on_fees` (lines 38-55): scan the
sorted tiers from `base_rate`, then clamp to the cap. -/
def calculate_current_rate_based_on_fees (cs : CommissionStructure) (cumulative_fees : ℚ) : ℚ :=
  applyCap cs.cap (scanRate cumulative_fees (sortTiers cs.tiers) cs.base_rate)

/-- State returned by the segment loop: the remaining fee, the running
commission total, the current fee position and the breakdown list. -/
structure LoopOut where
  remaining : ℚ
  total : ℚ
  pos : ℚ
  breakdown : List Segment
deriving DecidableEq, Repr

/-- The `while remaining_fee > 0` loop of
`calculate_commission_based_on_fees` (lines 87-166), with explicit fuel.
Each iteration finds the first sorted tier with threshold strictly greater
than the current position (lines 93-97, Python's `break` = `List.find?`),
computes the effective rate `min(current_rate, cap)` (line 100), and either
crosses to the next threshold (lines 106-130) or consumes the remaining fee
in place (lines 131-148 and 149-166, which are identical). Exhausted fuel
returns the current state, exactly as a failing loop guard does. -/
def segmentLoop (tiers : List Tier) (cap : Option ℚ) :
    Nat → ℚ → ℚ → ℚ → ℚ → List Segment → LoopOut
  | 0, remaining_fee, _, total, pos, breakdown =>
    ⟨remaining_fee, total, pos, breakdown⟩
  | fuel + 1, remaining_fee, current_rate, total, pos, breakdown =>
    if 0 < remaining_fee then
      let effective_rate := applyCap cap current_rate
      match tiers.find? (fun t => decide (pos < t.threshold)) with
      | some t =>
        if t.threshold - pos ≤ remaining_fee then
          let segment_fee := t.threshold - pos
          segmentLoop tiers cap fuel (remaining_fee - segment_fee) (applyCap cap t.rate)
            (total + segment_fee * effective_rate) t.threshold
            (breakdown ++ [⟨pos, t.threshold, segment_fee, effective_rate,
              segment_fee * effective_rate⟩])
        else
          segmentLoop tiers cap fuel 0 current_rate
            (total + remaining_fee * effective_rate) (pos + remaining_fee)
            (breakdown ++ [⟨pos, pos + remaining_fee, remaining_fee, effective_rate,
              remaining_fee * effective_rate⟩])
      | none =>
        segmentLoop tiers cap fuel 0 current_rate
          (total + remaining_fee * effective_rate) (pos + remaining_fee)
          (breakdown ++ [⟨pos, pos + remaining_fee, remaining_fee, effective_rate,
            remaining_fee * effective_rate⟩])
    else ⟨remaining_fee, total, pos, breakdown⟩

/-- The loop of `calculate_commission_based_on_fees` run on its actual
starting state (lines 62-87): sorted tiers, fee amount as the remaining
fee, the pre-loop rate of lines 77-84 (which is exactly
`calculate_current_rate_based_on_fees` at the starting position), zero
total, position `cumulative_fees_before`, empty breakdown. -/
def commissionRun (cs : CommissionStructure) (cumulative_fees_before fee_amount : ℚ) : LoopOut :=
  segmentLoop (sortTiers cs.tiers) cs.cap ((sortTiers cs.tiers).length + 1) fee_amount
    (calculate_current_rate_based_on_fees cs cumulative_fees_before) 0 cumulative_fees_before []

/-- `Employee.calculate_commission_based_on_fees` (lines 57-185). The
post-loop `new_rate` recomputation of lines 168-175 is the same scan and
clamp as `calculate_current_rate_based_on_fees`, applied at the final fee
position. -/
def calculate_commission_based_on_fees (cs : CommissionStructure)
    (cumulative_fees_before cumulative_commission_before fee_amount : ℚ) : CommissionResult :=
  { total_commission := (commissionRun cs cumulative_fees_before fee_amount).total
    breakdown := (commissionRun cs cumulative_fees_before fee_amount).breakdown
    cumulative_fees_before := cumulative_fees_before
    cumulative_fees_after := (commissionRun cs cumulative_fees_before fee_amount).pos
    cumulative_commission_before := cumulative_commission_before
    cumulative_commission_after :=
      cumulative_commission_before + (commissionRun cs cumulative_fees_before fee_amount).total
    new_rate :=
      calculate_current_rate_based_on_fees cs (commissionRun cs cumulative_fees_before fee_amount).pos }

/-- Sum of the `fee_amount` fields of a breakdown. -/
def sumFee (l : List Segment) : ℚ := (l.map Segment.fee_amount).sum

/-- Sum of the `commission` fields of a breakdown. -/
def sumComm (l : List Segment) : ℚ := (l.map Segment.commission).sum

/-- `Chained a l b`: the segments of `l` tile the interval from `a` to `b`
in order — the first starts at `a`, each segment starts where the previous
one ended, and the last ends at `b` (for `l = []` this forces `a = b`). -/
def Chained : ℚ → List Segment → ℚ → Prop
  | a, [], b => a = b
  | a, s :: rest, b => s.from_cumulative_fees = a ∧ Chained s.to_cumulative_fees rest b

/-! ### Unfolding lemmas for the loop -/

/-- A failing loop guard (or exhausted fuel) returns the state unchanged. -/
theorem segmentLoop_nonpos (tiers : List Tier) (cap : Option ℚ) (fuel : Nat)
    (remaining rate total pos : ℚ) (br : List Segment) (h : ¬ 0 < remaining) :
    segmentLoop tiers cap fuel remaining rate total pos br = ⟨remaining, total, pos, br⟩ := by
  cases fuel with
  | zero => rfl
  | succ fuel => simp only [segmentLoop, if_neg h]

/-- One iteration with no tier threshold above the current position
(lines 149-166). -/
theorem segmentLoop_succ_none (tiers : List Tier) (cap : Option ℚ) (fuel : Nat)
    (remaining rate total pos : ℚ) (br : List Segment) (h : 0 < remaining)
    (hf : tiers.find? (fun t => decide (pos < t.threshold)) = none) :
    segmentLoop tiers cap (fuel + 1) remaining rate total pos br =
      segmentLoop tiers cap fuel 0 rate (total + remaining * applyCap cap rate)
        (pos + remaining)
        (br ++ [⟨pos, pos + remaining, remaining, applyCap cap rate,
          remaining * applyCap cap rate⟩]) := by
  simp only [segmentLoop, if_pos h, hf]

/-- One iteration that reaches the next tier threshold exactly
(lines 106-130). -/
theorem segmentLoop_succ_cross (tiers : List Tier) (cap : Option ℚ) (fuel : Nat)
    (remaining rate total pos : ℚ) (br : List Segment) (t : Tier) (h : 0 < remaining)
    (hf : tiers.find? (fun u => decide (pos < u.threshold)) = some t)
    (hsp : t.threshold - pos ≤ remaining) :
    segmentLoop tiers cap (fuel + 1) remaining rate total pos br =
      segmentLoop tiers cap fuel (remaining - (t.threshold - pos)) (applyCap cap t.rate)
        (total + (t.threshold - pos) * applyCap cap rate) t.threshold
        (br ++ [⟨pos, t.threshold, t.threshold - pos, applyCap cap rate,
          (t.threshold - pos) * applyCap cap rate⟩]) := by
  simp only [segmentLoop, if_pos h, hf, if_pos hsp]

/-- One iteration that stays inside the current tier because the remaining
fee does not reach the next threshold (lines 131-148). -/
theorem segmentLoop_succ_stay (tiers : List Tier) (cap : Option ℚ) (fuel : Nat)
    (remaining rate total pos : ℚ) (br : List Segment) (t : Tier) (h : 0 < remaining)
    (hf : tiers.find? (fun u => decide (pos < u.threshold)) = some t)
    (hsp : ¬ t.threshold - pos ≤ remaining) :
    segmentLoop tiers cap (fuel + 1) remaining rate total pos br =
      segmentLoop tiers cap fuel 0 rate (total + remaining * applyCap cap rate)
        (pos + remaining)
        (br ++ [⟨pos, pos + remaining, remaining, applyCap cap rate,
          remaining * applyCap cap rate⟩]) := by
  simp only [segmentLoop, if_pos h, hf, if_neg hsp]

/-! ### Generic list facts used for the termination measure -/

/-- Filtering with a stronger predicate keeps at most as many elements. -/
theorem length_filter_le_filter {α : Type} (p q : α → Bool) (l : List α)
    (h : ∀ a ∈ l, q a = true → p a = true) :
    (l.filter q).length ≤ (l.filter p).length := by
  induction l with
  | nil => simp
  | cons b tl ih =>
    have htl : ∀ a ∈ tl, q a = true → p a = true := fun a ha => h a (List.mem_cons_of_mem b ha)
    by_cases hqb : q b = true
    · have hpb : p b = true := h b (List.mem_cons_self b tl) hqb
      simp only [List.filter_cons, hqb, hpb, if_pos, List.length_cons]
      exact Nat.succ_le_succ (ih htl)
    · have hqb : q b = false := by
        cases hq : q b with
        | false => rfl
        | true => exact absurd hq hqb
      by_cases hpb : p b = true
      · simp only [List.filter_cons, hqb, hpb]
        simp only [Bool.false_eq_true, if_false, if_true, List.length_cons]
        exact Nat.le_succ_of_le (ih htl)
      · have hpb : p b = false := by
          cases hp : p b with
          | false => rfl
          | true => exact absurd hp hpb
        simp only [List.filter_cons, hqb, hpb, Bool.false_eq_true, if_false]
        exact ih htl

/-- Filtering with a stronger predicate keeps strictly fewer elements when
some listed element separates the two predicates. -/
theorem length_filter_lt_filter {α : Type} (p q : α → Bool) (l : List α)
    (h : ∀ a ∈ l, q a = true → p a = true) (a : α) (ha : a ∈ l)
    (hpa : p a = true) (hqa : q a = false) :
    (l.filter q).length < (l.filter p).length := by
  induction l with
  | nil => exact absurd ha (List.not_mem_nil a)
  | cons b tl ih =>
    have htl : ∀ x ∈ tl, q x = true → p x = true := fun x hx => h x (List.mem_cons_of_mem b hx)
    rcases List.mem_cons.mp ha with hab | hatl
    · subst hab
      simp only [List.filter_cons, hpa, hqa, Bool.false_eq_true, if_false, if_true,
        List.length_cons]
      exact Nat.lt_succ_of_le (length_filter_le_filter p q tl htl)
    · have hlt : (tl.filter q).length < (tl.filter p).length := ih htl hatl
      by_cases hqb : q b = true
      · have hpb : p b = true := h b (List.mem_cons_self b tl) hqb
        simp only [List.filter_cons, hqb, hpb, if_true, List.length_cons]
        exact Nat.succ_lt_succ hlt
      · have hqb : q b = false := by
          cases hq : q b with
          | false => rfl
          | true => exact absurd hq hqb
        by_cases hpb : p b = true
        · simp only [List.filter_cons, hqb, hpb, Bool.false_eq_true, if_false, if_true,
            List.length_cons]
          exact Nat.lt_succ_of_lt hlt
        · have hpb : p b = false := by
            cases hp : p b with
            | false => rfl
            | true => exact absurd hp hpb
          simp only [List.filter_cons, hqb, hpb, Bool.false_eq_true, if_false]
          exact hlt

/-- The termination measure of the loop: how many tiers still lie strictly
above the current fee position. -/
def tiersAbove (tiers : List Tier) (pos : ℚ) : Nat :=
  (tiers.filter (fun t => decide (pos < t.threshold))).length

/-- Crossing to the next threshold strictly decreases the number of tiers
still ahead. -/
theorem tiersAbove_decrease (tiers : List Tier) (pos : ℚ) (t : Tier)
    (hf : tiers.find? (fun u => decide (pos < u.threshold)) = some t) :
    tiersAbove tiers t.threshold < tiersAbove tiers pos := by
  have hmem : t ∈ tiers := List.mem_of_find?_eq_some hf
  have hpt : pos < t.threshold := by
    have h1 := List.find?_some hf
    simpa using h1
  refine length_filter_lt_filter _ _ tiers ?_ t hmem ?_ ?_
  · intro a _ hq
    have := of_decide_eq_true hq
    exact decide_eq_true (lt_trans hpt this)
  · exact decide_eq_true hpt
  · exact decide_eq_false (lt_irrefl t.threshold)

/-! ### The loop invariant -/

/-- Everything the loop guarantees about the segments it appends: the
result state is the input state advanced by the new segments, the new
segments tile the fee interval in order, every new segment has positive
fee, `commission = fee_amount * rate` and `to - from = fee_amount`, and
when a cap is present every new segment's rate is at most the cap. -/
theorem segmentLoop_spec (tiers : List Tier) (cap : Option ℚ) :
    ∀ (fuel : Nat) (remaining rate total pos : ℚ) (br : List Segment),
    ∃ extra : List Segment,
      segmentLoop tiers cap fuel remaining rate total pos br =
        ⟨remaining - sumFee extra, total + sumComm extra, pos + sumFee extra, br ++ extra⟩ ∧
      Chained pos extra (pos + sumFee extra) ∧
      (∀ s ∈ extra, s.commission = s.fee_amount * s.rate ∧
        s.to_cumulative_fees - s.from_cumulative_fees = s.fee_amount ∧ 0 < s.fee_amount) ∧
      (∀ c, cap = some c → ∀ s ∈ extra, s.rate ≤ c) := by
  intro fuel
  induction fuel with
  | zero =>
    intro remaining rate total pos br
    refine ⟨[], ?_, ?_, ?_, ?_⟩
    · simp [segmentLoop, sumFee, sumComm]
    · simp [Chained, sumFee]
    · simp
    · simp
  | succ fuel ih =>
    intro remaining rate total pos br
    by_cases hr : 0 < remaining
    · rcases hfind : tiers.find? (fun t => decide (pos < t.threshold)) with _ | t
      · -- no threshold ahead: one final segment, then the loop drains
        obtain ⟨extra, heq, hch, hprops, hcap⟩ :=
          ih 0 rate (total + remaining * applyCap cap rate) (pos + remaining)
            (br ++ [⟨pos, pos + remaining, remaining, applyCap cap rate,
              remaining * applyCap cap rate⟩])
        refine ⟨⟨pos, pos + remaining, remaining, applyCap cap rate,
            remaining * applyCap cap rate⟩ :: extra, ?_, ?_, ?_, ?_⟩
        · rw [segmentLoop_succ_none tiers cap fuel remaining rate total pos br hr hfind, heq]
          simp only [sumFee, sumComm, List.map_cons, List.sum_cons, List.append_assoc,
            List.singleton_append, LoopOut.mk.injEq]
          refine ⟨by ring, by ring, by ring, trivial⟩
        · refine ⟨rfl, ?_⟩
          have : pos + sumFee (⟨pos, pos + remaining, remaining, applyCap cap rate,
              remaining * applyCap cap rate⟩ :: extra) = (pos + remaining) + sumFee extra := by
            simp only [sumFee, List.map_cons, List.sum_cons]; ring
          rw [this]
          exact hch
        · intro s hs
          rcases List.mem_cons.mp hs with hs | hs
          · subst hs; exact ⟨rfl, by ring, hr⟩
          · exact hprops s hs
        · intro c hc s hs
          rcases List.mem_cons.mp hs with hs | hs
          · subst hs
            simp only [applyCap, hc]
            exact min_le_right _ _
          · exact hcap c hc s hs
      · by_cases hsp : t.threshold - pos ≤ remaining
        · -- the segment reaches the next threshold exactly
          obtain ⟨extra, heq, hch, hprops, hcap⟩ :=
            ih (remaining - (t.threshold - pos)) (applyCap cap t.rate)
              (total + (t.threshold - pos) * applyCap cap rate) t.threshold
              (br ++ [⟨pos, t.threshold, t.threshold - pos, applyCap cap rate,
                (t.threshold - pos) * applyCap cap rate⟩])
          have hpt : pos < t.threshold := by
            have h1 := List.find?_some hfind
            simpa using h1
          refine ⟨⟨pos, t.threshold, t.threshold - pos, applyCap cap rate,
              (t.threshold - pos) * applyCap cap rate⟩ :: extra, ?_, ?_, ?_, ?_⟩
          · rw [segmentLoop_succ_cross tiers cap fuel remaining rate total pos br t hr hfind hsp,
              heq]
            simp only [sumFee, sumComm, List.map_cons, List.sum_cons, List.append_assoc,
              List.singleton_append, LoopOut.mk.injEq]
            refine ⟨by ring, by ring, by ring, trivial⟩
          · refine ⟨rfl, ?_⟩
            have : pos + sumFee (⟨pos, t.threshold, t.threshold - pos, applyCap cap rate,
                (t.threshold - pos) * applyCap cap rate⟩ :: extra) =
                t.threshold + sumFee extra := by
              simp only [sumFee, List.map_cons, List.sum_cons]; ring
            rw [this]
            exact hch
          · intro s hs
            rcases List.mem_cons.mp hs with hs | hs
            · subst hs
              exact ⟨rfl, by ring, sub_pos.mpr hpt⟩
            · exact hprops s hs
          · intro c hc s hs
            rcases List.mem_cons.mp hs with hs | hs
            · subst hs
              simp only [applyCap, hc]
              exact min_le_right _ _
            · exact hcap c hc s hs
        · -- the remaining fee stays inside the current tier
          obtain ⟨extra, heq, hch, hprops, hcap⟩ :=
            ih 0 rate (total + remaining * applyCap cap rate) (pos + remaining)
              (br ++ [⟨pos, pos + remaining, remaining, applyCap cap rate,
                remaining * applyCap cap rate⟩])
          refine ⟨⟨pos, pos + remaining, remaining, applyCap cap rate,
              remaining * applyCap cap rate⟩ :: extra, ?_, ?_, ?_, ?_⟩
          · rw [segmentLoop_succ_stay tiers cap fuel remaining rate total pos br t hr hfind hsp,
              heq]
            simp only [sumFee, sumComm, List.map_cons, List.sum_cons, List.append_assoc,
              List.singleton_append, LoopOut.mk.injEq]
            refine ⟨by ring, by ring, by ring, trivial⟩
          · refine ⟨rfl, ?_⟩
            have : pos + sumFee (⟨pos, pos + remaining, remaining, applyCap cap rate,
                remaining * applyCap cap rate⟩ :: extra) = (pos + remaining) + sumFee extra := by
              simp only [sumFee, List.map_cons, List.sum_cons]; ring
            rw [this]
            exact hch
          · intro s hs
            rcases List.mem_cons.mp hs with hs | hs
            · subst hs; exact ⟨rfl, by ring, hr⟩
            · exact hprops s hs
          · intro c hc s hs
            rcases List.mem_cons.mp hs with hs | hs
            · subst hs
              simp only [applyCap, hc]
              exact min_le_right _ _
            · exact hcap c hc s hs
    · refine ⟨[], ?_, ?_, ?_, ?_⟩
      · rw [segmentLoop_nonpos tiers cap (fuel + 1) remaining rate total pos br hr]
        simp [sumFee, sumComm]
      · simp [Chained, sumFee]
      · simp
      · simp

/-- With fuel exceeding the number of tiers still ahead, the loop drains a
positive remaining fee completely (and leaves a non-positive one alone):
the `while` loop of line 87 always exits through its guard. -/
theorem segmentLoop_remaining (tiers : List Tier) (cap : Option ℚ) :
    ∀ (fuel : Nat) (remaining rate total pos : ℚ) (br : List Segment),
    tiersAbove tiers pos < fuel →
    (segmentLoop tiers cap fuel remaining rate total pos br).remaining =
      if 0 < remaining then 0 else remaining := by
  intro fuel
  induction fuel with
  | zero => intro _ _ _ _ _ h; exact absurd h (Nat.not_lt_zero _)
  | succ fuel ih =>
    intro remaining rate total pos br hfuel
    by_cases hr : 0 < remaining
    · rcases hfind : tiers.find? (fun t => decide (pos < t.threshold)) with _ | t
      · rw [segmentLoop_succ_none tiers cap fuel remaining rate total pos br hr hfind,
          segmentLoop_nonpos tiers cap fuel 0 _ _ _ _ (lt_irrefl 0), if_pos hr]
      · by_cases hsp : t.threshold - pos ≤ remaining
        · rw [segmentLoop_succ_cross tiers cap fuel remaining rate total pos br t hr hfind hsp]
          have hdec : tiersAbove tiers t.threshold < fuel :=
            Nat.lt_of_lt_of_le (tiersAbove_decrease tiers pos t hfind)
              (Nat.lt_succ_iff.mp hfuel)
          rw [ih (remaining - (t.threshold - pos)) (applyCap cap t.rate)
            (total + (t.threshold - pos) * applyCap cap rate) t.threshold _ hdec]
          by_cases hz : 0 < remaining - (t.threshold - pos)
          · rw [if_pos hz, if_pos hr]
          · rw [if_neg hz, if_pos hr]
            linarith
        · rw [segmentLoop_succ_stay tiers cap fuel remaining rate total pos br t hr hfind hsp,
            segmentLoop_nonpos tiers cap fuel 0 _ _ _ _ (lt_irrefl 0), if_pos hr]
    · rw [segmentLoop_nonpos tiers cap (fuel + 1) remaining rate total pos br hr, if_neg hr]

/-- With fuel exceeding the number of tiers still ahead, adding more fuel
changes nothing: the fuelled loop has stabilised, i.e. the unbounded
`while` loop terminates within that many iterations. -/
theorem segmentLoop_stable (tiers : List Tier) (cap : Option ℚ) :
    ∀ (fuel : Nat) (remaining rate total pos : ℚ) (br : List Segment),
    tiersAbove tiers pos < fuel →
    ∀ extraFuel : Nat,
      segmentLoop tiers cap (fuel + extraFuel) remaining rate total pos br =
        segmentLoop tiers cap fuel remaining rate total pos br := by
  intro fuel
  induction fuel with
  | zero => intro _ _ _ _ _ h; exact absurd h (Nat.not_lt_zero _)
  | succ fuel ih =>
    intro remaining rate total pos br hfuel extraFuel
    have hshift : fuel + 1 + extraFuel = (fuel + extraFuel) + 1 := by omega
    rw [hshift]
    by_cases hr : 0 < remaining
    · rcases hfind : tiers.find? (fun t => decide (pos < t.threshold)) with _ | t
      · rw [segmentLoop_succ_none tiers cap (fuel + extraFuel) remaining rate total pos br hr hfind,
          segmentLoop_succ_none tiers cap fuel remaining rate total pos br hr hfind,
          segmentLoop_nonpos tiers cap (fuel + extraFuel) 0 _ _ _ _ (lt_irrefl 0),
          segmentLoop_nonpos tiers cap fuel 0 _ _ _ _ (lt_irrefl 0)]
      · by_cases hsp : t.threshold - pos ≤ remaining
        · rw [segmentLoop_succ_cross tiers cap (fuel + extraFuel) remaining rate total pos br t hr
            hfind hsp,
            segmentLoop_succ_cross tiers cap fuel remaining rate total pos br t hr hfind hsp]
          have hdec : tiersAbove tiers t.threshold < fuel :=
            Nat.lt_of_lt_of_le (tiersAbove_decrease tiers pos t hfind)
              (Nat.lt_succ_iff.mp hfuel)
          exact ih (remaining - (t.threshold - pos)) (applyCap cap t.rate)
            (total + (t.threshold - pos) * applyCap cap rate) t.threshold _ hdec extraFuel
        · rw [segmentLoop_succ_stay tiers cap (fuel + extraFuel) remaining rate total pos br t hr
            hfind hsp,
            segmentLoop_succ_stay tiers cap fuel remaining rate total pos br t hr hfind hsp,
            segmentLoop_nonpos tiers cap (fuel + extraFuel) 0 _ _ _ _ (lt_irrefl 0),
            segmentLoop_nonpos tiers cap fuel 0 _ _ _ _ (lt_irrefl 0)]
    · rw [segmentLoop_nonpos tiers cap ((fuel + extraFuel) + 1) remaining rate total pos br hr,
        segmentLoop_nonpos tiers cap (fuel + 1) remaining rate total pos br hr]

/-- The fuel used by `commissionRun` always satisfies the bound of the
consumption and stability lemmas. -/
theorem tiersAbove_lt_run_fuel (cs : CommissionStructure) (pos : ℚ) :
    tiersAbove (sortTiers cs.tiers) pos < (sortTiers cs.tiers).length + 1 :=
  Nat.lt_succ_of_le (List.length_filter_le _ _)

/-! ### The overwrite scan -/

/-- If the cumulative fees are below every threshold, the scan never
overwrites its accumulator. -/
theorem scanRate_of_forall_lt (fees : ℚ) :
    ∀ (l : List Tier) (r : ℚ), (∀ t ∈ l, fees < t.threshold) → scanRate fees l r = r := by
  intro l
  induction l with
  | nil => intro r _; rfl
  | cons a tl ih =>
    intro r h
    have ha : fees < a.threshold := h a (List.mem_cons_self a tl)
    have htl : ∀ t ∈ tl, fees < t.threshold := fun t ht => h t (List.mem_cons_of_mem a ht)
    simp only [scanRate, List.foldl_cons, if_neg (not_le.mpr ha)]
    exact ih r htl

/-- On a list sorted by threshold, if some tier is satisfied then the scan
returns the rate of a satisfied tier whose threshold is maximal among the
satisfied ones (the last satisfied tier in scan order wins). -/
theorem scanRate_max (fees : ℚ) :
    ∀ (l : List Tier) (r : ℚ), l.Pairwise tierLE →
    (∃ t ∈ l, t.threshold ≤ fees) →
    ∃ t ∈ l, t.threshold ≤ fees ∧
      (∀ u ∈ l, u.threshold ≤ fees → u.threshold ≤ t.threshold) ∧
      scanRate fees l r = t.rate := by
  intro l
  induction l with
  | nil =>
    intro r _ hex
    exact absurd hex (by simp)
  | cons a tl ih =>
    intro r hpw hex
    have hpw1 : ∀ b ∈ tl, tierLE a b := List.pairwise_cons.mp hpw |>.1
    have hpw2 : tl.Pairwise tierLE := List.pairwise_cons.mp hpw |>.2
    by_cases htl : ∃ t ∈ tl, t.threshold ≤ fees
    · obtain ⟨t, hmem, hsat, hmax, hscan⟩ :=
        ih (if a.threshold ≤ fees then a.rate else r) hpw2 htl
      refine ⟨t, List.mem_cons_of_mem a hmem, hsat, ?_, ?_⟩
      · intro u hu husat
        rcases List.mem_cons.mp hu with hu | hu
        · subst hu
          exact hpw1 t hmem
        · exact hmax u hu husat
      · simpa only [scanRate, List.foldl_cons] using hscan
    · obtain ⟨w, hw, hwsat⟩ := hex
      have hwa : w = a := by
        rcases List.mem_cons.mp hw with h | h
        · exact h
        · exact absurd ⟨w, h, hwsat⟩ htl
      subst hwa
      have hall : ∀ t ∈ tl, fees < t.threshold := by
        intro t ht
        by_contra hc
        exact htl ⟨t, ht, not_lt.mp hc⟩
      refine ⟨w, List.mem_cons_self w tl, hwsat, ?_, ?_⟩
      · intro u hu husat
        rcases List.mem_cons.mp hu with hu | hu
        · subst hu; exact le_refl _
        · exact absurd ⟨u, hu, husat⟩ htl
      · simp only [scanRate, List.foldl_cons, if_pos hwsat]
        exact scanRate_of_forall_lt fees tl w.rate hall

/-- Appending to the left of the breakdown does not change the loop's
numeric output, so the `∃ extra` of `segmentLoop_spec` applies at `br = []`
with `extra` the whole breakdown. -/
theorem commissionRun_spec (cs : CommissionStructure) (before fee : ℚ) :
    commissionRun cs before fee =
      ⟨fee - sumFee (commissionRun cs before fee).breakdown,
        sumComm (commissionRun cs before fee).breakdown,
        before + sumFee (commissionRun cs before fee).breakdown,
        (commissionRun cs before fee).breakdown⟩ ∧
    Chained before (commissionRun cs before fee).breakdown
      (before + sumFee (commissionRun cs before fee).breakdown) ∧
    (∀ s ∈ (commissionRun cs before fee).breakdown,
      s.commission = s.fee_amount * s.rate ∧
      s.to_cumulative_fees - s.from_cumulative_fees = s.fee_amount ∧ 0 < s.fee_amount) ∧
    (∀ c, cs.cap = some c → ∀ s ∈ (commissionRun cs before fee).breakdown, s.rate ≤ c) := by
  obtain ⟨extra, heq, hch, hprops, hcap⟩ :=
    segmentLoop_spec (sortTiers cs.tiers) cs.cap ((sortTiers cs.tiers).length + 1) fee
      (calculate_current_rate_based_on_fees cs before) 0 before []
  have hbr : (commissionRun cs before fee).breakdown = extra := by
    rw [commissionRun, heq]
    simp
  rw [hbr]
  have hrun : commissionRun cs before fee =
      ⟨fee - sumFee extra, 0 + sumComm extra, before + sumFee extra, [] ++ extra⟩ := by
    rw [commissionRun, heq]
  refine ⟨?_, hch, hprops, hcap⟩
  rw [hrun]
  simp

/-- A non-positive fee amount never enters the loop: the run returns the
starting state. -/
theorem commissionRun_nonpos (cs : CommissionStructure) (before fee : ℚ) (h : ¬ 0 < fee) :
    commissionRun cs before fee = ⟨fee, 0, before, []⟩ :=
  segmentLoop_nonpos _ _ _ _ _ _ _ _ h

/-- The run always drains a positive fee amount and leaves a non-positive
one alone. -/
theorem commissionRun_remaining (cs : CommissionStructure) (before fee : ℚ) :
    (commissionRun cs before fee).remaining = if 0 < fee then 0 else fee :=
  segmentLoop_remaining _ _ _ _ _ _ _ _ (tiersAbove_lt_run_fuel cs before)

/-- When the fee amount is non-negative, the breakdown's fee amounts sum to
exactly the fee amount. -/
theorem commissionRun_sumFee (cs : CommissionStructure) (before fee : ℚ) (hf : 0 ≤ fee) :
    sumFee (commissionRun cs before fee).breakdown = fee := by
  have h1 := congrArg LoopOut.remaining (commissionRun_spec cs before fee).1
  rw [commissionRun_remaining cs before fee] at h1
  by_cases h : 0 < fee
  · rw [if_pos h] at h1
    have : (0 : ℚ) = fee - sumFee (commissionRun cs before fee).breakdown := h1
    linarith
  · rw [if_neg h] at h1
    have hfe : fee = 0 := le_antisymm (not_lt.mp h) hf
    have : fee = fee - sumFee (commissionRun cs before fee).breakdown := h1
    linarith

/-! ### Example structures used by the concrete claims -/

/-- Flat structure: base rate 10%, no tiers, no cap. -/
def structureFlat : CommissionStructure := ⟨1/10, [], none⟩

/-- One tier: base 10%, 15% from 100000 of cumulative fees, no cap. -/
def structureOneTier : CommissionStructure := ⟨1/10, [⟨100000, 3/20⟩], none⟩

/-- Capped structure of the spec's cap-enforcement scenario: base 20%, 30%
from 1000, cap 25%. -/
def structureCapped : CommissionStructure := ⟨1/5, [⟨1000, 3/10⟩], some (1/4)⟩

/-- Duplicate-threshold structure: base 10%, two tiers both at threshold
100, listed with rate 20% first and rate 30% second. -/
def structureDup : CommissionStructure := ⟨1/10, [⟨100, 1/5⟩, ⟨100, 3/10⟩], none⟩

/-! ### The claims -/

/-- C1: `calculate_current_rate_based_on_fees` returns `base_rate` when the
cumulative fees are below every tier threshold, otherwise the rate of a
satisfied tier of maximal threshold (boundaries inclusive), always clamped
to the cap; an empty tier list yields the (clamped) base rate. -/
theorem C1_currentRate_tier_selection (cs : CommissionStructure) (fees : ℚ) :
    ((∀ t ∈ cs.tiers, fees < t.threshold) →
      calculate_current_rate_based_on_fees cs fees = applyCap cs.cap cs.base_rate) ∧
    ((∃ t ∈ cs.tiers, t.threshold ≤ fees) →
      ∃ t ∈ cs.tiers, t.threshold ≤ fees ∧
        (∀ u ∈ cs.tiers, u.threshold ≤ fees → u.threshold ≤ t.threshold) ∧
        calculate_current_rate_based_on_fees cs fees = applyCap cs.cap t.rate) ∧
    (cs.tiers = [] →
      calculate_current_rate_based_on_fees cs fees = applyCap cs.cap cs.base_rate) := by
  have hperm : List.Perm (sortTiers cs.tiers) cs.tiers := List.perm_insertionSort tierLE cs.tiers
  refine ⟨?_, ?_, ?_⟩
  · intro h
    have hall : ∀ t ∈ sortTiers cs.tiers, fees < t.threshold := fun t ht =>
      h t (hperm.mem_iff.mp ht)
    rw [calculate_current_rate_based_on_fees,
      scanRate_of_forall_lt fees (sortTiers cs.tiers) cs.base_rate hall]
  · intro hex
    have hex2 : ∃ t ∈ sortTiers cs.tiers, t.threshold ≤ fees := by
      obtain ⟨t, ht, hsat⟩ := hex
      exact ⟨t, hperm.mem_iff.mpr ht, hsat⟩
    have hpw : (sortTiers cs.tiers).Pairwise tierLE :=
      List.sorted_insertionSort tierLE cs.tiers
    obtain ⟨t, hmem, hsat, hmax, hscan⟩ := scanRate_max fees (sortTiers cs.tiers) cs.base_rate hpw hex2
    refine ⟨t, hperm.mem_iff.mp hmem, hsat, ?_, ?_⟩
    · intro u hu husat
      exact hmax u (hperm.mem_iff.mpr hu) husat
    · rw [calculate_current_rate_based_on_fees, hscan]
  · intro h
    rw [calculate_current_rate_based_on_fees]
    have : sortTiers cs.tiers = [] := by rw [h]; rfl
    rw [this]
    rfl

/-- Witness for C1 at concrete inputs: below the only threshold the base
rate 10% applies, at or above it the tier rate 15% applies, and with an
empty tier list the base rate applies at any fee level. -/
theorem C1_currentRate_tier_selection_witness :
    calculate_current_rate_based_on_fees structureOneTier 50 = 1/10 ∧
    calculate_current_rate_based_on_fees structureOneTier 150000 = 3/20 ∧
    calculate_current_rate_based_on_fees structureFlat 7 = 1/10 := by
  refine ⟨?_, ?_, ?_⟩
  · have h := (C1_currentRate_tier_selection structureOneTier 50).1
    rw [h]
    · rfl
    · intro t ht
      simp only [structureOneTier, List.mem_singleton] at ht
      rw [ht]
      norm_num
  · obtain ⟨t, hmem, _, _, hres⟩ := (C1_currentRate_tier_selection structureOneTier 150000).2.1
      ⟨⟨100000, 3/20⟩, by simp [structureOneTier], by norm_num⟩
    simp only [structureOneTier, List.mem_singleton] at hmem
    rw [hres, hmem]
    rfl
  · have h := (C1_currentRate_tier_selection structureFlat 7).2.2
    rw [h rfl]
    rfl

/-- C2: the spec's single-boundary-crossing scenario: base 10%, one tier at
100000 with 15%, cumulative fees before 90000, fee amount 20000, yielding
two segments (90000→100000 at 10% = 1000, then 100000→110000 at 15% =
1500), total 2500 and new rate 15%. -/
theorem C2_single_boundary_crossing :
    calculate_commission_based_on_fees structureOneTier 90000 0 20000 =
      { total_commission := 2500
        breakdown := [⟨90000, 100000, 10000, 1/10, 1000⟩, ⟨100000, 110000, 10000, 3/20, 1500⟩]
        cumulative_fees_before := 90000
        cumulative_fees_after := 110000
        cumulative_commission_before := 0
        cumulative_commission_after := 2500
        new_rate := 3/20 } := by
  norm_num [calculate_commission_based_on_fees, commissionRun, segmentLoop,
    calculate_current_rate_based_on_fees, sortTiers, List.insertionSort, List.orderedInsert,
    tierLE, scanRate, applyCap, List.find?, structureOneTier]

/-- C3: every breakdown segment satisfies `commission = fee_amount * rate`,
the segment commissions sum to `total_commission`, and the segment fee
amounts sum to the fee amount. -/
theorem C3_segment_sums (cs : CommissionStructure) (before cc fee : ℚ)
    (hb : 0 ≤ before) (hf : 0 ≤ fee) :
    (∀ seg ∈ (calculate_commission_based_on_fees cs before cc fee).breakdown,
      seg.commission = seg.fee_amount * seg.rate) ∧
    sumComm (calculate_commission_based_on_fees cs before cc fee).breakdown =
      (calculate_commission_based_on_fees cs before cc fee).total_commission ∧
    sumFee (calculate_commission_based_on_fees cs before cc fee).breakdown = fee := by
  obtain ⟨heq, _, hprops, _⟩ := commissionRun_spec cs before fee
  have hbr : (calculate_commission_based_on_fees cs before cc fee).breakdown =
      (commissionRun cs before fee).breakdown := rfl
  refine ⟨?_, ?_, ?_⟩
  · intro seg hseg
    rw [hbr] at hseg
    exact (hprops seg hseg).1
  · have htot := congrArg LoopOut.total heq
    rw [hbr]
    exact htot.symm
  · rw [hbr]
    exact commissionRun_sumFee cs before fee hf

/-- Witness for C3: in the single-boundary scenario the two segment fee
amounts sum to the full fee amount of 20000. -/
theorem C3_segment_sums_witness :
    (0:ℚ) ≤ 90000 ∧ (0:ℚ) ≤ 20000 ∧
    sumFee (calculate_commission_based_on_fees structureOneTier 90000 0 20000).breakdown =
      20000 :=
  ⟨by norm_num, by norm_num,
    (C3_segment_sums structureOneTier 90000 0 20000 (by norm_num) (by norm_num)).2.2⟩

/-- C4: the breakdown is contiguous and ordered: each segment spans exactly
its fee amount, consecutive segments abut, the first starts at the
cumulative fees before and the last ends at the cumulative fees after
(`Chained` states all four at once). -/
theorem C4_breakdown_contiguous (cs : CommissionStructure) (before cc fee : ℚ)
    (hb : 0 ≤ before) (hf : 0 ≤ fee) :
    (∀ seg ∈ (calculate_commission_based_on_fees cs before cc fee).breakdown,
      seg.to_cumulative_fees - seg.from_cumulative_fees = seg.fee_amount) ∧
    Chained before (calculate_commission_based_on_fees cs before cc fee).breakdown
      (calculate_commission_based_on_fees cs before cc fee).cumulative_fees_after := by
  obtain ⟨heq, hch, hprops, _⟩ := commissionRun_spec cs before fee
  have hbr : (calculate_commission_based_on_fees cs before cc fee).breakdown =
      (commissionRun cs before fee).breakdown := rfl
  have hafter : (calculate_commission_based_on_fees cs before cc fee).cumulative_fees_after =
      (commissionRun cs before fee).pos := rfl
  refine ⟨?_, ?_⟩
  · intro seg hseg
    rw [hbr] at hseg
    exact (hprops seg hseg).2.1
  · rw [hbr, hafter]
    have hpos := congrArg LoopOut.pos heq
    rw [hpos]
    exact hch

/-- Witness for C4: in the single-boundary scenario the two segments tile
the interval from 90000 to the final cumulative fee position. -/
theorem C4_breakdown_contiguous_witness :
    (0:ℚ) ≤ 90000 ∧ (0:ℚ) ≤ 20000 ∧
    Chained 90000 (calculate_commission_based_on_fees structureOneTier 90000 0 20000).breakdown
      (calculate_commission_based_on_fees structureOneTier 90000 0 20000).cumulative_fees_after :=
  ⟨by norm_num, by norm_num,
    (C4_breakdown_contiguous structureOneTier 90000 0 20000 (by norm_num) (by norm_num)).2⟩

/-- C5: with a cap present every breakdown segment's rate and the returned
`new_rate` are at most the cap; in the spec's cap-enforcement scenario
(base 20%, tier 30% at 1000, cap 25%, before 2000, fee 1000) the single
segment carries the capped rate 25% and the total commission is 250. -/
theorem C5_cap_enforcement (cs : CommissionStructure) (before cc fee c : ℚ)
    (hc : cs.cap = some c) :
    (∀ seg ∈ (calculate_commission_based_on_fees cs before cc fee).breakdown,
      seg.rate ≤ c) ∧
    (calculate_commission_based_on_fees cs before cc fee).new_rate ≤ c ∧
    (calculate_commission_based_on_fees structureCapped 2000 0 1000).total_commission = 250 ∧
    (calculate_commission_based_on_fees structureCapped 2000 0 1000).breakdown =
      [⟨2000, 3000, 1000, 1/4, 250⟩] := by
  obtain ⟨_, _, _, hcap⟩ := commissionRun_spec cs before fee
  refine ⟨?_, ?_, ?_, ?_⟩
  · intro seg hseg
    exact hcap c hc seg hseg
  · have : (calculate_commission_based_on_fees cs before cc fee).new_rate =
        applyCap cs.cap (scanRate (commissionRun cs before fee).pos (sortTiers cs.tiers)
          cs.base_rate) := rfl
    rw [this, hc]
    exact min_le_right _ _
  · norm_num [calculate_commission_based_on_fees, commissionRun, segmentLoop,
      calculate_current_rate_based_on_fees, sortTiers, List.insertionSort, List.orderedInsert,
      tierLE, scanRate, applyCap, List.find?, structureCapped]
  · norm_num [calculate_commission_based_on_fees, commissionRun, segmentLoop,
      calculate_current_rate_based_on_fees, sortTiers, List.insertionSort, List.orderedInsert,
      tierLE, scanRate, applyCap, List.find?, structureCapped]

/-- Witness for C5: in the capped scenario the returned new rate is at most
the cap of 25%. -/
theorem C5_cap_enforcement_witness :
    structureCapped.cap = some (1/4) ∧
    (calculate_commission_based_on_fees structureCapped 2000 0 1000).new_rate ≤ 1/4 :=
  ⟨rfl, (C5_cap_enforcement structureCapped 2000 0 1000 (1/4) rfl).2.1⟩

/-- C6: a zero fee amount produces an empty breakdown, zero total
commission, unchanged cumulative fees and commission, and a new rate equal
to the current rate at the starting position. -/
theorem C6_zero_fee (cs : CommissionStructure) (before cc : ℚ) (hb : 0 ≤ before) :
    (calculate_commission_based_on_fees cs before cc 0).breakdown = [] ∧
    (calculate_commission_based_on_fees cs before cc 0).total_commission = 0 ∧
    (calculate_commission_based_on_fees cs before cc 0).cumulative_fees_after = before ∧
    (calculate_commission_based_on_fees cs before cc 0).cumulative_commission_after = cc ∧
    (calculate_commission_based_on_fees cs before cc 0).new_rate =
      calculate_current_rate_based_on_fees cs before := by
  have h0 := commissionRun_nonpos cs before 0 (lt_irrefl 0)
  refine ⟨?_, ?_, ?_, ?_, ?_⟩ <;>
    simp [calculate_commission_based_on_fees, h0]

/-- Witness for C6: a zero fee on the one-tier structure at position 500
changes nothing and reports the base rate. -/
theorem C6_zero_fee_witness :
    (0:ℚ) ≤ 500 ∧
    (calculate_commission_based_on_fees structureOneTier 500 7 0).breakdown = [] ∧
    (calculate_commission_based_on_fees structureOneTier 500 7 0).cumulative_fees_after = 500 ∧
    (calculate_commission_based_on_fees structureOneTier 500 7 0).cumulative_commission_after =
      7 :=
  ⟨by norm_num, (C6_zero_fee structureOneTier 500 7 (by norm_num)).1,
    (C6_zero_fee structureOneTier 500 7 (by norm_num)).2.2.1,
    (C6_zero_fee structureOneTier 500 7 (by norm_num)).2.2.2.1⟩

/-- Refutation of C7: a negative fee amount is NOT rejected. The source has
no validation and no error path: the `while` guard is simply false and a
normal result dictionary is produced. At fee amount -100 on the one-tier
structure the call returns an ordinary result (empty breakdown, zero total,
unchanged totals) instead of signalling an invalid-argument condition. -/
theorem C7_negative_fee_not_rejected :
    calculate_commission_based_on_fees structureOneTier 500 0 (-100) =
      { total_commission := 0
        breakdown := []
        cumulative_fees_before := 500
        cumulative_fees_after := 500
        cumulative_commission_before := 0
        cumulative_commission_after := 0
        new_rate := 1/10 } := by
  norm_num [calculate_commission_based_on_fees, commissionRun, segmentLoop,
    calculate_current_rate_based_on_fees, sortTiers, List.insertionSort, List.orderedInsert,
    tierLE, scanRate, applyCap, structureOneTier]

/-- C7 as amended: a negative fee amount is not rejected; the segment loop
is never entered and the call returns the same normal result as a zero fee
amount — empty breakdown, zero total commission, unchanged cumulative
fields, and `new_rate` equal to the current rate at the starting
position. -/
theorem C7_amended_negative_fee_no_error (cs : CommissionStructure) (before cc fee : ℚ)
    (h : fee < 0) :
    calculate_commission_based_on_fees cs before cc fee =
      calculate_commission_based_on_fees cs before cc 0 ∧
    (calculate_commission_based_on_fees cs before cc fee).breakdown = [] ∧
    (calculate_commission_based_on_fees cs before cc fee).total_commission = 0 ∧
    (calculate_commission_based_on_fees cs before cc fee).cumulative_fees_after = before ∧
    (calculate_commission_based_on_fees cs before cc fee).cumulative_commission_after = cc ∧
    (calculate_commission_based_on_fees cs before cc fee).new_rate =
      calculate_current_rate_based_on_fees cs before := by
  have hneg := commissionRun_nonpos cs before fee (not_lt.mpr (le_of_lt h))
  have h0 := commissionRun_nonpos cs before 0 (lt_irrefl 0)
  refine ⟨?_, ?_, ?_, ?_, ?_, ?_⟩ <;>
    simp [calculate_commission_based_on_fees, hneg, h0]

/-- Witness for the amended C7: fee amount -100 at position 800 yields the
zero-fee result. -/
theorem C7_amended_negative_fee_no_error_witness :
    (-100 : ℚ) < 0 ∧
    calculate_commission_based_on_fees structureOneTier 800 2 (-100) =
      calculate_commission_based_on_fees structureOneTier 800 2 0 :=
  ⟨by norm_num,
    (C7_amended_negative_fee_no_error structureOneTier 800 2 (-100) (by norm_num)).1⟩

/-- An unsorted tier list with a duplicate threshold: base 10%, tiers
listed as (200, 40%), (100, 20%), (100, 30%). -/
def structureUnsorted : CommissionStructure :=
  ⟨1/10, [⟨200, 2/5⟩, ⟨100, 1/5⟩, ⟨100, 3/10⟩], none⟩

/-- Clamping to the cap twice is the same as clamping once. -/
theorem applyCap_idem (cap : Option ℚ) (r : ℚ) :
    applyCap cap (applyCap cap r) = applyCap cap r := by
  cases cap with
  | none => rfl
  | some c => simp [applyCap, min_assoc]

/-- Inserting a tier of threshold `q` into a list puts it in front of the
listed tiers of threshold `q`: every tier it is inserted after has a
strictly smaller threshold. -/
theorem filter_threshold_orderedInsert_eq (a : Tier) (q : ℚ) (ha : a.threshold = q) :
    ∀ l : List Tier,
      (List.orderedInsert tierLE a l).filter (fun t => decide (t.threshold = q)) =
        a :: l.filter (fun t => decide (t.threshold = q)) := by
  intro l
  induction l with
  | nil => simp [List.orderedInsert, ha]
  | cons b tl ih =>
    by_cases hab : tierLE a b
    · simp only [List.orderedInsert, if_pos hab]
      simp [ha]
    · have hb : ¬ b.threshold = q := by
        intro hbq
        exact hab (show a.threshold ≤ b.threshold by rw [ha, hbq])
      simp only [List.orderedInsert, if_neg hab]
      simp only [List.filter_cons, decide_eq_true_eq, if_neg hb, ih]

/-- Inserting a tier of a different threshold leaves the tiers of threshold
`q` untouched. -/
theorem filter_threshold_orderedInsert_ne (a : Tier) (q : ℚ) (ha : ¬ a.threshold = q) :
    ∀ l : List Tier,
      (List.orderedInsert tierLE a l).filter (fun t => decide (t.threshold = q)) =
        l.filter (fun t => decide (t.threshold = q)) := by
  intro l
  induction l with
  | nil => simp [List.orderedInsert, ha]
  | cons b tl ih =>
    by_cases hab : tierLE a b
    · simp only [List.orderedInsert, if_pos hab]
      simp [ha]
    · simp only [List.orderedInsert, if_neg hab]
      simp only [List.filter_cons, ih]

/-- `sortTiers` is stable: for every threshold value the subsequence of
tiers carrying that threshold is exactly as listed, so duplicates keep
their original relative order. -/
theorem sortTiers_stable (l : List Tier) (q : ℚ) :
    (sortTiers l).filter (fun t => decide (t.threshold = q)) =
      l.filter (fun t => decide (t.threshold = q)) := by
  induction l with
  | nil => rfl
  | cons x tl ih =>
    show (List.orderedInsert tierLE x (sortTiers tl)).filter _ = _
    by_cases hx : x.threshold = q
    · rw [filter_threshold_orderedInsert_eq x q hx (sortTiers tl), ih]
      simp [List.filter_cons, hx]
    · rw [filter_threshold_orderedInsert_ne x q hx (sortTiers tl), ih]
      simp [List.filter_cons, hx]

/-- The overwrite scan is last-wins: it returns the rate of the LAST listed
tier whose threshold is satisfied, or its accumulator when none is. -/
theorem scanRate_eq_getLast (fees : ℚ) (l : List Tier) :
    ∀ r : ℚ, scanRate fees l r =
      (((l.filter (fun t => decide (t.threshold ≤ fees))).getLast?).map Tier.rate).getD r := by
  induction l using List.reverseRecOn with
  | nil => intro r; rfl
  | append_singleton l a ih =>
    intro r
    have hstep : scanRate fees (l ++ [a]) r =
        if a.threshold ≤ fees then a.rate else scanRate fees l r := by
      simp only [scanRate, List.foldl_append, List.foldl_cons, List.foldl_nil]
    by_cases h : a.threshold ≤ fees
    · rw [hstep, if_pos h, List.filter_append]
      simp [h, List.getLast?_concat]
    · rw [hstep, if_neg h, List.filter_append]
      simp [h, ih r]

/-- `ConsecRate tiers cap segs`: every non-first segment's rate is the
(cap-clamped) rate of the FIRST tier in `tiers` whose threshold is strictly
greater than the previous segment's start — the tier the next-boundary
search (lines 93-97) breaks at, whose threshold is the boundary the
previous segment ends on. -/
def ConsecRate (tiers : List Tier) (cap : Option ℚ) : List Segment → Prop
  | [] => True
  | [_] => True
  | s₁ :: s₂ :: rest =>
    (∃ t : Tier,
      tiers.find? (fun u => decide (s₁.from_cumulative_fees < u.threshold)) = some t ∧
      t.threshold = s₁.to_cumulative_fees ∧ s₂.rate = applyCap cap t.rate) ∧
    ConsecRate tiers cap (s₂ :: rest)

/-- The loop only changes the current rate at a boundary crossing, and then
adopts the (cap-clamped) rate of the first tier above the old position: the
segments it appends satisfy `ConsecRate`, and the first of them carries the
(cap-clamped) incoming rate and starts at the incoming position. -/
theorem segmentLoop_consec (tiers : List Tier) (cap : Option ℚ) :
    ∀ (fuel : Nat) (remaining rate total pos : ℚ) (br : List Segment),
    ∃ extra : List Segment,
      (segmentLoop tiers cap fuel remaining rate total pos br).breakdown = br ++ extra ∧
      (∀ s, extra.head? = some s →
        s.rate = applyCap cap rate ∧ s.from_cumulative_fees = pos) ∧
      ConsecRate tiers cap extra := by
  intro fuel
  induction fuel with
  | zero =>
    intro remaining rate total pos br
    refine ⟨[], by simp [segmentLoop], by simp, trivial⟩
  | succ fuel ih =>
    intro remaining rate total pos br
    by_cases hr : 0 < remaining
    · rcases hfind : tiers.find? (fun t => decide (pos < t.threshold)) with _ | t
      · refine ⟨[⟨pos, pos + remaining, remaining, applyCap cap rate,
          remaining * applyCap cap rate⟩], ?_, ?_, trivial⟩
        · rw [segmentLoop_succ_none tiers cap fuel remaining rate total pos br hr hfind,
            segmentLoop_nonpos tiers cap fuel 0 _ _ _ _ (lt_irrefl 0)]
        · intro s hs
          simp only [List.head?_cons, Option.some.injEq] at hs
          rw [← hs]
          exact ⟨rfl, rfl⟩
      · by_cases hsp : t.threshold - pos ≤ remaining
        · obtain ⟨extra, hbr, hhead, hcons⟩ :=
            ih (remaining - (t.threshold - pos)) (applyCap cap t.rate)
              (total + (t.threshold - pos) * applyCap cap rate) t.threshold
              (br ++ [⟨pos, t.threshold, t.threshold - pos, applyCap cap rate,
                (t.threshold - pos) * applyCap cap rate⟩])
          refine ⟨⟨pos, t.threshold, t.threshold - pos, applyCap cap rate,
              (t.threshold - pos) * applyCap cap rate⟩ :: extra, ?_, ?_, ?_⟩
          · rw [segmentLoop_succ_cross tiers cap fuel remaining rate total pos br t hr hfind hsp,
              hbr]
            simp
          · intro s hs
            simp only [List.head?_cons, Option.some.injEq] at hs
            rw [← hs]
            exact ⟨rfl, rfl⟩
          · cases extra with
            | nil => trivial
            | cons s₂ rest =>
              refine ⟨⟨t, hfind, rfl, ?_⟩, hcons⟩
              have h2 := (hhead s₂ rfl).1
              rw [h2, applyCap_idem]
        · refine ⟨[⟨pos, pos + remaining, remaining, applyCap cap rate,
            remaining * applyCap cap rate⟩], ?_, ?_, trivial⟩
          · rw [segmentLoop_succ_stay tiers cap fuel remaining rate total pos br t hr hfind hsp,
              segmentLoop_nonpos tiers cap fuel 0 _ _ _ _ (lt_irrefl 0)]
          · intro s hs
            simp only [List.head?_cons, Option.some.injEq] at hs
            rw [← hs]
            exact ⟨rfl, rfl⟩
    · refine ⟨[], ?_, by simp, trivial⟩
      rw [segmentLoop_nonpos tiers cap (fuel + 1) remaining rate total pos br hr]
      simp

/-- Refutation of C8: with duplicate thresholds the rate applied by the
loop to fee space at or beyond the duplicated threshold is the rate of the
FIRST-listed tier at that threshold (the next-boundary search of lines
93-97 breaks at the first match), not the last-listed one: on base 10% with
tiers [(100, 20%), (100, 30%)], before 50 and fee 100, the segment beyond
100 carries rate 20% while the last-listed rate is 30% (which is what the
post-loop `new_rate` scan returns). -/
theorem C8_duplicate_threshold_counterexample :
    (calculate_commission_based_on_fees structureDup 50 0 100).breakdown =
      [⟨50, 100, 50, 1/10, 5⟩, ⟨100, 150, 50, 1/5, 10⟩] ∧
    ((1:ℚ)/5 ≠ 3/10) ∧
    (calculate_commission_based_on_fees structureDup 50 0 100).new_rate = 3/10 := by
  refine ⟨?_, by norm_num, ?_⟩
  · norm_num [calculate_commission_based_on_fees, commissionRun, segmentLoop,
      calculate_current_rate_based_on_fees, sortTiers, List.insertionSort, List.orderedInsert,
      tierLE, scanRate, applyCap, List.find?, structureDup]
  · norm_num [calculate_commission_based_on_fees, commissionRun, segmentLoop,
      calculate_current_rate_based_on_fees, sortTiers, List.insertionSort, List.orderedInsert,
      tierLE, scanRate, applyCap, List.find?, structureDup]

/-- The first segment of a run carries the (clamped) starting scan rate,
and every later segment's rate is the clamped rate of the first sorted tier
strictly above the previous segment's start. -/
theorem commissionRun_consecRate (cs : CommissionStructure) (before fee : ℚ) :
    ConsecRate (sortTiers cs.tiers) cs.cap (commissionRun cs before fee).breakdown ∧
    ∀ s, (commissionRun cs before fee).breakdown.head? = some s →
      s.rate = calculate_current_rate_based_on_fees cs before := by
  obtain ⟨extra, hbr, hhead, hcons⟩ :=
    segmentLoop_consec (sortTiers cs.tiers) cs.cap ((sortTiers cs.tiers).length + 1) fee
      (calculate_current_rate_based_on_fees cs before) 0 before []
  have hbr2 : (commissionRun cs before fee).breakdown = extra := by
    simp only [commissionRun]
    rw [hbr]
    simp
  constructor
  · rw [hbr2]
    exact hcons
  · intro s hs
    rw [hbr2] at hs
    have h1 := (hhead s hs).1
    rw [h1]
    simp only [calculate_current_rate_based_on_fees]
    exact applyCap_idem cs.cap _

/-- C8 as amended: duplicate and unsorted thresholds are accepted and
normalized identically in both operations by the stable ascending sort
`sortTiers` (sorted, a permutation of the input, and preserving the listed
order within every equal-threshold class). The overwrite scans are
last-wins: `calculate_current_rate_based_on_fees` returns the (clamped)
rate of the last tier in the normalized order whose threshold is satisfied
— for a duplicated threshold the last-listed tier — and `new_rate` is
exactly that operation at the final fee position. The loop instead adopts,
at each tier transition, the rate of the FIRST tier in the normalized
order with threshold strictly greater than the current position — for a
duplicated threshold the first-listed tier — and its first segment carries
the starting scan rate. Concretely: sorting the unsorted duplicate list
[(200, 40%), (100, 20%), (100, 30%)] yields
[(100, 20%), (100, 30%), (200, 40%)]; on both duplicate structures the
current rate at or beyond 100 is the last-listed 30% (respectively 30% at
150) while the loop segments of (before 50, fee 100) carry rates 10% then
the first-listed 20%, and `new_rate` is 30%. -/
theorem C8_amended_duplicate_threshold :
    (∀ l : List Tier,
      (sortTiers l).Pairwise tierLE ∧ List.Perm (sortTiers l) l ∧
      ∀ q : ℚ, (sortTiers l).filter (fun t => decide (t.threshold = q)) =
        l.filter (fun t => decide (t.threshold = q))) ∧
    (∀ (cs : CommissionStructure) (fees : ℚ),
      calculate_current_rate_based_on_fees cs fees =
        applyCap cs.cap
          ((((sortTiers cs.tiers).filter (fun t => decide (t.threshold ≤ fees))).getLast?.map
            Tier.rate).getD cs.base_rate)) ∧
    (∀ (cs : CommissionStructure) (before cc fee : ℚ),
      (calculate_commission_based_on_fees cs before cc fee).new_rate =
        calculate_current_rate_based_on_fees cs
          (calculate_commission_based_on_fees cs before cc fee).cumulative_fees_after) ∧
    (∀ (cs : CommissionStructure) (before cc fee : ℚ),
      ConsecRate (sortTiers cs.tiers) cs.cap
        (calculate_commission_based_on_fees cs before cc fee).breakdown) ∧
    (∀ (cs : CommissionStructure) (before cc fee : ℚ) (s : Segment),
      (calculate_commission_based_on_fees cs before cc fee).breakdown.head? = some s →
      s.rate = calculate_current_rate_based_on_fees cs before) ∧
    sortTiers structureUnsorted.tiers = [⟨100, 1/5⟩, ⟨100, 3/10⟩, ⟨200, 2/5⟩] ∧
    calculate_current_rate_based_on_fees structureUnsorted 150 = 3/10 ∧
    ((calculate_commission_based_on_fees structureUnsorted 50 0 100).breakdown.map
      Segment.rate) = [1/10, 1/5] ∧
    calculate_current_rate_based_on_fees structureDup 100 = 3/10 ∧
    ((calculate_commission_based_on_fees structureDup 50 0 100).breakdown.map
      Segment.rate) = [1/10, 1/5] ∧
    (calculate_commission_based_on_fees structureDup 50 0 100).new_rate = 3/10 := by
  refine ⟨?_, ?_, ?_, ?_, ?_, ?_, ?_, ?_, ?_, ?_, ?_⟩
  · intro l
    exact ⟨List.sorted_insertionSort tierLE l, List.perm_insertionSort tierLE l,
      fun q => sortTiers_stable l q⟩
  · intro cs fees
    exact congrArg (applyCap cs.cap) (scanRate_eq_getLast fees (sortTiers cs.tiers) cs.base_rate)
  · intro cs before cc fee
    rfl
  · intro cs before cc fee
    exact (commissionRun_consecRate cs before fee).1
  · intro cs before cc fee s hs
    exact (commissionRun_consecRate cs before fee).2 s hs
  · norm_num [sortTiers, List.insertionSort, List.orderedInsert, tierLE, structureUnsorted]
  · norm_num [calculate_current_rate_based_on_fees, sortTiers, List.insertionSort,
      List.orderedInsert, tierLE, scanRate, applyCap, structureUnsorted]
  · norm_num [calculate_commission_based_on_fees, commissionRun, segmentLoop,
      calculate_current_rate_based_on_fees, sortTiers, List.insertionSort, List.orderedInsert,
      tierLE, scanRate, applyCap, List.find?, structureUnsorted]
  · norm_num [calculate_current_rate_based_on_fees, sortTiers, List.insertionSort,
      List.orderedInsert, tierLE, scanRate, applyCap, structureDup]
  · norm_num [calculate_commission_based_on_fees, commissionRun, segmentLoop,
      calculate_current_rate_based_on_fees, sortTiers, List.insertionSort, List.orderedInsert,
      tierLE, scanRate, applyCap, List.find?, structureDup]
  · norm_num [calculate_commission_based_on_fees, commissionRun, segmentLoop,
      calculate_current_rate_based_on_fees, sortTiers, List.insertionSort, List.orderedInsert,
      tierLE, scanRate, applyCap, List.find?, structureDup]

/-- Witness for the amended C8: the first breakdown segment of the
duplicate run starts at 50 with the base rate 10%, which is the current
rate at the starting position. -/
theorem C8_amended_duplicate_threshold_witness :
    (calculate_commission_based_on_fees structureDup 50 0 100).breakdown.head? =
      some ⟨50, 100, 50, 1/10, 5⟩ ∧
    (⟨50, 100, 50, 1/10, 5⟩ : Segment).rate =
      calculate_current_rate_based_on_fees structureDup 50 := by
  have hh : (calculate_commission_based_on_fees structureDup 50 0 100).breakdown.head? =
      some ⟨50, 100, 50, 1/10, 5⟩ := by
    norm_num [calculate_commission_based_on_fees, commissionRun, segmentLoop,
      calculate_current_rate_based_on_fees, sortTiers, List.insertionSort, List.orderedInsert,
      tierLE, scanRate, applyCap, List.find?, structureDup]
  exact ⟨hh, C8_amended_duplicate_threshold.2.2.2.2.1 structureDup 50 0 100 _ hh⟩

/-- C9: the segment loop terminates — with the fuel bound `tiers.length + 1`
the remaining fee is fully consumed (the loop exits through its guard) and
granting any extra fuel changes nothing — and when the fee amount is
positive every emitted segment has strictly positive fee amount (the
next-boundary search only considers thresholds strictly greater than the
current position, so every iteration makes progress). -/
theorem C9_loop_terminates (cs : CommissionStructure) (before cc fee : ℚ)
    (hb : 0 ≤ before) (hf : 0 < fee) :
    (∀ seg ∈ (calculate_commission_based_on_fees cs before cc fee).breakdown,
      0 < seg.fee_amount) ∧
    (commissionRun cs before fee).remaining = 0 ∧
    (∀ extraFuel : Nat,
      segmentLoop (sortTiers cs.tiers) cs.cap ((sortTiers cs.tiers).length + 1 + extraFuel) fee
        (calculate_current_rate_based_on_fees cs before) 0 before [] =
      commissionRun cs before fee) := by
  obtain ⟨_, _, hprops, _⟩ := commissionRun_spec cs before fee
  refine ⟨?_, ?_, ?_⟩
  · intro seg hseg
    exact (hprops seg hseg).2.2
  · rw [commissionRun_remaining cs before fee, if_pos hf]
  · intro extraFuel
    exact segmentLoop_stable (sortTiers cs.tiers) cs.cap ((sortTiers cs.tiers).length + 1) fee
      (calculate_current_rate_based_on_fees cs before) 0 before []
      (tiersAbove_lt_run_fuel cs before) extraFuel

/-- Witness for C9: the single-boundary run consumes its whole fee. -/
theorem C9_loop_terminates_witness :
    (0:ℚ) ≤ 90000 ∧ (0:ℚ) < 20000 ∧
    (commissionRun structureOneTier 90000 20000).remaining = 0 :=
  ⟨by norm_num, by norm_num,
    (C9_loop_terminates structureOneTier 90000 0 20000 (by norm_num) (by norm_num)).2.1⟩

/-- C10: a negative fee amount returns normally and is treated exactly like
a zero fee: empty breakdown, zero total commission, unchanged cumulative
fees and commission, and `new_rate` equal to the current rate at the
starting position. -/
theorem C10_negative_fee_like_zero (cs : CommissionStructure) (before cc fee : ℚ)
    (h : fee < 0) :
    (calculate_commission_based_on_fees cs before cc fee).breakdown = [] ∧
    (calculate_commission_based_on_fees cs before cc fee).total_commission = 0 ∧
    (calculate_commission_based_on_fees cs before cc fee).cumulative_fees_after = before ∧
    (calculate_commission_based_on_fees cs before cc fee).cumulative_commission_after = cc ∧
    (calculate_commission_based_on_fees cs before cc fee).new_rate =
      calculate_current_rate_based_on_fees cs before := by
  have hneg := commissionRun_nonpos cs before fee (not_lt.mpr (le_of_lt h))
  refine ⟨?_, ?_, ?_, ?_, ?_⟩ <;>
    simp [calculate_commission_based_on_fees, hneg]

/-- Witness for C10: fee amount -100 at position 600 changes nothing. -/
theorem C10_negative_fee_like_zero_witness :
    (-100 : ℚ) < 0 ∧
    (calculate_commission_based_on_fees structureOneTier 600 3 (-100)).total_commission = 0 ∧
    (calculate_commission_based_on_fees structureOneTier 600 3 (-100)).cumulative_fees_after =
      600 :=
  ⟨by norm_num, (C10_negative_fee_like_zero structureOneTier 600 3 (-100) (by norm_num)).2.1,
    (C10_negative_fee_like_zero structureOneTier 600 3 (-100) (by norm_num)).2.2.1⟩
